import Mathlib

/-!
Verification of the kanban render pipeline (`src/kanban-view/render-pipeline.ts`)
and the card-reorder / render-decision logic of `src/kanban-view.ts`.

JavaScript `Map`s (insertion-ordered, unique keys) are modelled as association
lists `List (String × β)` with `assocGet` / `assocSet` mirroring `Map.get` /
`Map.set` (`set` on an existing key updates the value in place, keeping the
key's original position; on a fresh key it appends).
-/

namespace Kanban

/-- A file-backed record (`BasesEntry`): its file path and its property table.
`getValue` returning `none` models a `null`/`undefined` property value. -/
structure Entry where
  path : String
  props : List (String × Option String)
deriving DecidableEq

/-- Models `entry.getValue(propertyId)`: look up a property, `none` for
null/undefined (including absent properties). -/
def Entry.getValue (e : Entry) (propertyId : String) : Option String :=
  match e.props.find? (fun p => p.1 == propertyId) with
  | some p => p.2
  | none => none

/-- A `BasesEntryGroup`: the raw grouping value (modelled as `Option String`:
`none` for null/undefined, `some s` for a value whose string coercion is `s`),
the `hasKey` flag, and the ordered entries. -/
structure Group where
  key : Option String
  hasKey : Bool
  entries : List Entry
deriving DecidableEq

/-- Modelled from the spec: `getColumnKey` lives in `src/kanban-view/utils.ts`,
which is not among the provided sources. Spec section 4.1: null/undefined
normalize to a fixed sentinel string distinct from realistic values; every
other value maps to its string coercion. -/
def getColumnKey : Option String → String
  | none => "__no_value__"
  | some v => v

/-- The `DisplaySettings` record from `render-pipeline.ts`. Numeric settings
are modelled as integers. -/
structure DisplaySettings where
  cardTitleSource : String
  cardTitleMaxLength : Int
  propertyValueSeparator : String
  tagPropertySuffix : String
  tagSaturation : Int
  tagLightness : Int
  tagAlpha : Int
deriving DecidableEq

/-- A `RenderedGroup`: a merged group together with its entries after the
local card order has been applied. -/
structure RenderedGroup where
  group : Group
  entries : List Entry
deriving DecidableEq

/-- `ColumnSnapshot` = `Map<string, string[]>`: column key to ordered entry
paths, as an insertion-ordered association list. -/
abbrev ColumnSnapshot := List (String × List String)

/-- Result record of `canRenderPartially`. -/
structure PartialRenderResult where
  canPartial : Bool
  changedColumns : List String
deriving DecidableEq

/-- `Map.get`: the value of the first (and, under the `Map` invariant, only)
pair whose key matches. -/
def assocGet {β : Type} (m : List (String × β)) (k : String) : Option β :=
  match m.find? (fun p => p.1 == k) with
  | some p => some p.2
  | none => none

/-- `Map.set`: update in place if the key is present (keeping its position),
otherwise append. -/
def assocSet {β : Type} (m : List (String × β)) (k : String) (v : β) :
    List (String × β) :=
  if m.any (fun p => p.1 == k) then
    m.map (fun p => if p.1 == k then (k, v) else p)
  else
    m ++ [(k, v)]

/-- The `Map` invariant: keys are pairwise distinct. -/
def keysNodup {β : Type} (m : List (String × β)) : Prop :=
  (m.map Prod.fst).Nodup

/-- Embedding of `canSkipFullRender` (render-pipeline.ts lines 233-243):
false when nothing has been rendered or no previous signature exists,
otherwise string equality of the signatures. -/
def canSkipFullRender (currentSignature : String)
    (lastRenderSignature : Option String) (hasRenderedBoard : Bool) : Bool :=
  if !hasRenderedBoard then false
  else
    match lastRenderSignature with
    | none => false
    | some s => currentSignature == s

/-- Drop placement relative to the target card. -/
inductive Placement where
  | before
  | after
deriving DecidableEq

/-- Embedding of `KanbanView.reorderPathsForDrop` (kanban-view.ts lines
928-951): dropping onto a dragged card is a no-op; otherwise the moved paths
are removed and re-inserted contiguously at the drop position (at the end when
the target is null or not found). -/
def reorderPathsForDrop (existingPaths movedPaths : List String)
    (targetPath : Option String) (placement : Placement) : List String :=
  let movedHasTarget :=
    match targetPath with
    | some t => movedPaths.contains t
    | none => false
  if movedHasTarget then existingPaths
  else
    let nextPaths := existingPaths.filter (fun p => !movedPaths.contains p)
    let insertionIndex :=
      match targetPath with
      | none => nextPaths.length
      | some t =>
        match nextPaths.findIdx? (fun p => p == t) with
        | none => nextPaths.length
        | some targetIndex =>
          match placement with
          | .before => targetIndex
          | .after => targetIndex + 1
    nextPaths.take insertionIndex ++ movedPaths ++ nextPaths.drop insertionIndex

/-- Update step of `mergeGroupsByColumnKey` for an already-present column key:
the stored group keeps its position and key, OR-combines `hasKey`, and appends
the incoming entries (mirrors the in-place mutation of the map value). -/
def mergeUpdate (columnKey : String) (group : Group) (p : String × Group) :
    String × Group :=
  if p.1 == columnKey then
    (p.1, { p.2 with hasKey := p.2.hasKey || group.hasKey,
                     entries := p.2.entries ++ group.entries })
  else p

/-- Loop body of `mergeGroupsByColumnKey` (render-pipeline.ts lines 36-50). -/
def mergeGroupsAux (m : List (String × Group)) (group : Group) :
    List (String × Group) :=
  let columnKey := getColumnKey group.key
  match assocGet m columnKey with
  | none =>
    m ++ [(columnKey,
      { key := group.key, hasKey := group.hasKey, entries := group.entries })]
  | some _ => m.map (mergeUpdate columnKey group)

/-- Embedding of `mergeGroupsByColumnKey` (render-pipeline.ts lines 31-53):
fold the groups into an insertion-ordered map keyed by normalized column key,
then return the map's values. -/
def mergeGroupsByColumnKey (groups : List Group) : List Group :=
  (groups.foldl mergeGroupsAux []).map Prod.snd

/-- First-occurrence order of the keys of a list (the iteration order of a JS
`Map` built by inserting each key in turn). Used to state the ordering part of
the merge claim. -/
def firstOccurrenceKeys (ks : List String) : List String :=
  ks.foldl (fun acc k => if acc.contains k then acc else acc ++ [k]) []

/-- Total number of entries across a list of groups. -/
def sumEntryCounts (gs : List Group) : Nat :=
  (gs.map (fun g => g.entries.length)).sum

/-- Loop invariant of the fold inside `mergeGroupsByColumnKey`, relating the
accumulated map `m` to the already-processed prefix `pre` of the input: each
stored pair is keyed by its group's normalized key, the keys are the distinct
first-occurrence keys of `pre`, and each stored group's `hasKey`, entries and
entry count aggregate exactly the processed groups sharing its key. -/
def MergeInv (pre : List Group) (m : List (String × Group)) : Prop :=
  (∀ p ∈ m, getColumnKey p.2.key = p.1) ∧
  m.map Prod.fst = firstOccurrenceKeys (pre.map (fun g => getColumnKey g.key)) ∧
  (m.map Prod.fst).Nodup ∧
  (∀ p ∈ m, p.2.hasKey =
    (pre.filter (fun x => getColumnKey x.key == p.1)).any (fun x => x.hasKey)) ∧
  (∀ p ∈ m, p.2.entries =
    ((pre.filter (fun x => getColumnKey x.key == p.1)).map
      (fun x => x.entries)).flatten) ∧
  (m.map (fun p => p.2.entries.length)).sum = sumEntryCounts pre

/-- Index of the last occurrence of `k` in `columnOrder` (a JS `Map` built
from `columnOrder.map((key, i) => [key, i])` keeps the last index for a
duplicated key). -/
def lastIndexInOrder (columnOrder : List String) (k : String) : Option Nat :=
  ((columnOrder.enum.filter (fun p => p.2 == k)).map Prod.fst).getLast?

/-- Sort key of a group for `sortGroupsByColumnOrder`: its configured index,
with `columnOrder.length` standing in for `POSITIVE_INFINITY` (strictly larger
than every configured index). -/
def sortKeyIndex (columnOrder : List String) (g : Group) : Nat :=
  (lastIndexInOrder columnOrder (getColumnKey g.key)).getD columnOrder.length

/-- Embedding of `sortGroupsByColumnOrder` (render-pipeline.ts lines 59-84):
stable sort by configured column index; groups not in the order config sort
after all listed ones, keeping their relative order (JS `Array.sort` is
stable, as is insertion sort). -/
def sortGroupsByColumnOrder (groups : List Group) (columnOrder : List String) :
    List Group :=
  if columnOrder.length == 0 then groups
  else
    List.insertionSort
      (fun a b => sortKeyIndex columnOrder a ≤ sortKeyIndex columnOrder b)
      groups

/-- The `entryByPath` map of `applyLocalCardOrder`: built from
`new Map(entries.map((entry) => [entry.file.path, entry]))`, so a later
duplicate path overwrites an earlier one. -/
def buildEntryByPath (entries : List Entry) : List (String × Entry) :=
  entries.foldl (fun m e => assocSet m e.path e) []

/-- Embedding of `applyLocalCardOrder` (render-pipeline.ts lines 90-128):
reorder a column's entries by the saved order, prepending entries absent from
the saved list. -/
def applyLocalCardOrder (columnKey : String) (entries : List Entry)
    (localOrderByColumn : List (String × List String)) : List Entry :=
  match assocGet localOrderByColumn columnKey with
  | none => entries
  | some orderedPaths =>
    if orderedPaths.length == 0 then entries
    else
      let entryByPath := buildEntryByPath entries
      let nextEntries := orderedPaths.foldl
        (fun acc path =>
          match assocGet entryByPath path with
          | none => acc
          | some e => acc ++ [e]) []
      let usedPaths :=
        orderedPaths.filter (fun path => (assocGet entryByPath path).isSome)
      let newEntries := entries.filter (fun e => !usedPaths.contains e.path)
      newEntries ++ nextEntries

/-- Embedding of `buildRenderedGroups` (render-pipeline.ts lines 133-145). -/
def buildRenderedGroups (orderedGroups : List Group)
    (localCardOrderByColumn : List (String × List String)) :
    List RenderedGroup :=
  orderedGroups.map (fun group =>
    { group := group,
      entries := applyLocalCardOrder (getColumnKey group.key) group.entries
        localCardOrderByColumn })

/-- Concrete fixture entry with path `A` (for the spec's worked example). -/
def entryA : Entry := { path := "A", props := [] }

/-- Concrete fixture entry with path `B`. -/
def entryB : Entry := { path := "B", props := [] }

/-- Concrete fixture entry with path `C`. -/
def entryC : Entry := { path := "C", props := [] }

/-- Base-36 digit character (`0-9` then `a-z`), as used by JS
`Number.prototype.toString(36)`. -/
def digitChar36 (n : Nat) : Char :=
  if n < 10 then Char.ofNat (48 + n) else Char.ofNat (87 + n)

/-- Digits of `n` in base 36, accumulated most-significant first. `fuel`
bounds the iteration count (any `fuel > n` suffices since `n` strictly
shrinks under division by 36); structural recursion on `fuel` keeps the
definition kernel-evaluable. -/
def natToBase36Go (fuel n : Nat) (acc : List Char) : List Char :=
  match fuel with
  | 0 => acc
  | fuel + 1 =>
    if n < 36 then digitChar36 n :: acc
    else natToBase36Go fuel (n / 36) (digitChar36 (n % 36) :: acc)

/-- `n.toString(36)` for a natural number. -/
def natToBase36 (n : Nat) : String :=
  String.mk (natToBase36Go (n + 1) n [])

/-- `toString(36)` of a signed JS 32-bit value: minus sign followed by the
magnitude in base 36 for negatives. -/
def intToBase36 (i : Int) : String :=
  if i < 0 then "-" ++ natToBase36 i.natAbs else natToBase36 i.toNat

/-- Wrap an integer to JS `| 0` semantics (signed 32-bit two's complement). -/
def toInt32 (n : Int) : Int :=
  (n + 2 ^ 31) % 2 ^ 32 - 2 ^ 31

/-- One step of the rolling hash
`hash = ((hash << 5) - hash + char) | 0` (render-pipeline.ts line 187);
`hash << 5` itself truncates to 32 bits in JS. -/
def hashStep (h : Int) (c : Nat) : Int :=
  toInt32 (toInt32 (h * 32) - h + c)

/-- JSON string literal (escaping of special characters is not modelled; the
settings and path strings of interest contain none). -/
def jsonString (s : String) : String :=
  "\"" ++ s ++ "\""

/-- `JSON.stringify(displaySettings)` with the field order of the
`DisplaySettings` type. -/
def stringifyDisplaySettings (ds : DisplaySettings) : String :=
  "\x7b" ++
    "\"cardTitleSource\":" ++ jsonString ds.cardTitleSource ++
    ",\"cardTitleMaxLength\":" ++ toString ds.cardTitleMaxLength ++
    ",\"propertyValueSeparator\":" ++ jsonString ds.propertyValueSeparator ++
    ",\"tagPropertySuffix\":" ++ jsonString ds.tagPropertySuffix ++
    ",\"tagSaturation\":" ++ toString ds.tagSaturation ++
    ",\"tagLightness\":" ++ toString ds.tagLightness ++
    ",\"tagAlpha\":" ++ toString ds.tagAlpha ++
  "\x7d"

/-- `JSON.stringify` of a string array. -/
def stringifyPathList (ps : List String) : String :=
  "[" ++ String.intercalate "," (ps.map jsonString) ++ "]"

/-- `JSON.stringify([...localCardOrderByColumn.entries()])`: an array of
`[key, paths]` pairs. -/
def stringifyLocalOrderEntries (m : List (String × List String)) : String :=
  "[" ++
    String.intercalate ","
      (m.map (fun p => "[" ++ jsonString p.1 ++ "," ++ stringifyPathList p.2 ++ "]")) ++
  "]"

/-- Embedding of `computePropertyValuesHash` (render-pipeline.ts lines
151-191): concatenate `path:propertyId=value` parts (null/undefined values as
`__null__`), join with `|`, and hash with the rolling 32-bit hash rendered in
base 36. Character codes are modelled by the character's code point (identical
to `charCodeAt` on the basic multilingual plane). -/
def computePropertyValuesHash (groups : List Group)
    (propertiesToTrack : List String) : String :=
  if propertiesToTrack.length == 0 then ""
  else
    let parts := List.flatten (groups.map (fun group =>
      List.flatten (group.entries.map (fun entry =>
        propertiesToTrack.map (fun propertyId =>
          let valueStr :=
            match entry.getValue propertyId with
            | none => "__null__"
            | some v => v
          entry.path ++ ":" ++ propertyId ++ "=" ++ valueStr)))))
    let combined := String.intercalate "|" parts
    intToBase36 (combined.foldl (fun h c => hashStep h c.toNat) 0)

/-- Embedding of `computeRenderSignature` (render-pipeline.ts lines 197-228). -/
def computeRenderSignature (groups : List Group)
    (displaySettings : DisplaySettings)
    (localCardOrderByColumn : List (String × List String))
    (selectedProperties : List String) (groupByProperty : Option String) :
    String :=
  let groupKeys := String.intercalate "|" (groups.map (fun g => getColumnKey g.key))
  let entryPaths := String.intercalate "|"
    (List.flatten (groups.map (fun g => g.entries.map (fun e => e.path))))
  let settingsHash := stringifyDisplaySettings displaySettings
  let localOrderHash := stringifyLocalOrderEntries localCardOrderByColumn
  let propertiesToTrack := selectedProperties.filter (fun propertyId =>
    propertyId != "file.name" &&
      (match groupByProperty with
       | some g => propertyId != g
       | none => true))
  let propertyValuesHash := computePropertyValuesHash groups propertiesToTrack
  groupKeys ++ "::" ++ entryPaths ++ "::" ++ settingsHash ++ "::" ++
    localOrderHash ++ "::" ++ propertyValuesHash

/-- Whether two ordered path lists differ in length or at some position
(the inner comparison loop of `findChangedColumns`). -/
def pathsDiffer (currentPaths previousPaths : List String) : Bool :=
  if currentPaths.length != previousPaths.length then true
  else (currentPaths.zip previousPaths).any (fun p => p.1 != p.2)

/-- `Map.get` on a snapshot. -/
def snapGet (s : ColumnSnapshot) (k : String) : Option (List String) :=
  assocGet s k

/-- `Map.has` on a snapshot. -/
def snapHas (s : ColumnSnapshot) (k : String) : Bool :=
  s.any (fun kv => kv.1 == k)

/-- Whether a column of the current snapshot counts as changed against the
previous snapshot: new column, or path lists differing in length or at some
position (the body of the first loop of `findChangedColumns`). -/
def columnChanged (previous : ColumnSnapshot) (kv : String × List String) :
    Bool :=
  match snapGet previous kv.1 with
  | none => true
  | some previousPaths => pathsDiffer kv.2 previousPaths

/-- Embedding of `findChangedColumns` (render-pipeline.ts lines 267-300):
push changed/new columns while iterating the current snapshot, then removed
columns while iterating the previous snapshot. -/
def findChangedColumns (previous current : ColumnSnapshot) : List String :=
  let changed := current.foldl
    (fun acc kv => if columnChanged previous kv then acc ++ [kv.1] else acc) []
  previous.foldl
    (fun acc kv => if snapHas current kv.1 then acc else acc ++ [kv.1]) changed

/-- Embedding of `computeColumnSnapshots` (render-pipeline.ts lines 249-261). -/
def computeColumnSnapshots (renderedGroups : List RenderedGroup) :
    ColumnSnapshot :=
  renderedGroups.foldl
    (fun snapshots rg =>
      assocSet snapshots (getColumnKey rg.group.key)
        (rg.entries.map (fun e => e.path)))
    []

/-- Embedding of `canRenderPartially` (render-pipeline.ts lines 306-340). -/
def canRenderPartially (renderedGroups : List RenderedGroup)
    (lastColumnPathSnapshots : ColumnSnapshot) (hasRenderedBoard : Bool) :
    PartialRenderResult :=
  if !hasRenderedBoard || lastColumnPathSnapshots.length == 0 then
    { canPartial := false, changedColumns := [] }
  else
    let currentSnapshots := computeColumnSnapshots renderedGroups
    let changedColumns := findChangedColumns lastColumnPathSnapshots currentSnapshots
    if changedColumns.length == 0 then
      { canPartial := false, changedColumns := [] }
    else
      let boardStructureChanged :=
        currentSnapshots.length != lastColumnPathSnapshots.length ||
          changedColumns.any (fun key => !snapHas lastColumnPathSnapshots key)
      if boardStructureChanged then
        { canPartial := false, changedColumns := [] }
      else if changedColumns.length > 5 then
        { canPartial := false, changedColumns := [] }
      else
        { canPartial := true, changedColumns := changedColumns }

/-- The render strategy chosen by `KanbanView.render()`. -/
inductive RenderDecision where
  | skip
  | placeholder
  | patch
  | full
deriving DecidableEq

/-- The render-relevant persistent fields of a `KanbanView` instance
(kanban-view.ts lines 107-112). -/
structure ViewState where
  hasRenderedBoard : Bool
  lastRenderSignature : Option String
  lastColumnPathSnapshots : ColumnSnapshot
deriving DecidableEq

/-- Field initializers of `KanbanView`. -/
def initialViewState : ViewState :=
  { hasRenderedBoard := false, lastRenderSignature := none,
    lastColumnPathSnapshots := [] }

/-- The data available to one `render()` call. `hasGroupBy` models the result
of `hasConfiguredGroupBy(groups)`; that function lives in
`src/kanban-view/utils.ts`, which is not among the provided sources, so its
value is supplied as an input (the claims proved here hold for either value). -/
structure RenderInput where
  rawGroups : List Group
  displaySettings : DisplaySettings
  localCardOrderByColumn : List (String × List String)
  selectedProperties : List String
  groupByProperty : Option String
  columnOrder : List String
  hasGroupBy : Bool
deriving DecidableEq

/-- The signature computed at the top of `render()` (kanban-view.ts lines
374-380). -/
def currentSignatureOf (inp : RenderInput) : String :=
  computeRenderSignature (mergeGroupsByColumnKey inp.rawGroups)
    inp.displaySettings inp.localCardOrderByColumn inp.selectedProperties
    inp.groupByProperty

/-- The rendered groups computed by `render()` (kanban-view.ts lines
400-402): merge, sort by column order, apply local card order. -/
def renderedGroupsOf (inp : RenderInput) : List RenderedGroup :=
  buildRenderedGroups
    (sortGroupsByColumnOrder (mergeGroupsByColumnKey inp.rawGroups)
      inp.columnOrder)
    inp.localCardOrderByColumn

/-- Embedding of the decision structure and state updates of
`KanbanView.render()` (kanban-view.ts lines 343-540): skip when the signature
matches, placeholder when no grouping is configured, otherwise partial when
`canRenderPartially` allows it and a full rebuild in every remaining case.
Only the full path sets `hasRenderedBoard`. -/
def renderStep (st : ViewState) (inp : RenderInput) :
    ViewState × RenderDecision :=
  let currentSignature := currentSignatureOf inp
  if canSkipFullRender currentSignature st.lastRenderSignature
      st.hasRenderedBoard then
    (st, RenderDecision.skip)
  else if !inp.hasGroupBy then
    (st, RenderDecision.placeholder)
  else
    let renderedGroups := renderedGroupsOf inp
    let pr := canRenderPartially renderedGroups st.lastColumnPathSnapshots
      st.hasRenderedBoard
    if pr.canPartial && !pr.changedColumns.isEmpty then
      ({ st with lastRenderSignature := some currentSignature,
                 lastColumnPathSnapshots := computeColumnSnapshots renderedGroups },
        RenderDecision.patch)
    else
      ({ hasRenderedBoard := true,
         lastRenderSignature := some currentSignature,
         lastColumnPathSnapshots := computeColumnSnapshots renderedGroups },
        RenderDecision.full)

/-- Run a sequence of data-update renders against a view state. -/
def runRenders (st : ViewState) (inps : List RenderInput) : ViewState :=
  inps.foldl (fun s i => (renderStep s i).1) st

/-- Concrete display settings used as a fixture in witnesses. -/
def sampleDisplaySettings : DisplaySettings :=
  { cardTitleSource := "basename", cardTitleMaxLength := 80,
    propertyValueSeparator := ", ", tagPropertySuffix := "tag",
    tagSaturation := 60, tagLightness := 40, tagAlpha := 1 }

/-- Concrete render input used as a fixture: one group (key `k`) holding the
single entry `A`, grouping configured, no overrides. -/
def sampleRenderInput : RenderInput :=
  { rawGroups := [{ key := some "k", hasKey := true, entries := [entryA] }],
    displaySettings := sampleDisplaySettings,
    localCardOrderByColumn := [], selectedProperties := [],
    groupByProperty := none, columnOrder := [], hasGroupBy := true }

/-- Concrete view state used as a fixture: a prior render exists whose
signature `x` cannot match any real signature, and whose snapshot equals the
one `sampleRenderInput` produces. -/
def sampleViewState : ViewState :=
  { hasRenderedBoard := true, lastRenderSignature := some "x",
    lastColumnPathSnapshots := [("k", ["A"])] }

/-- Claim C4: `canSkipFullRender` returns true iff a previous render has
occurred, a previous signature exists, and it string-equals the current one;
in particular it is false whenever `hasRenderedBoard` is false. -/
theorem canSkipFullRender_iff (current : String) (last : Option String)
    (hasRenderedBoard : Bool) :
    canSkipFullRender current last hasRenderedBoard = true ↔
      hasRenderedBoard = true ∧ ∃ s, last = some s ∧ s = current := by
  cases hasRenderedBoard with
  | false =>
    constructor
    · intro h; simp [canSkipFullRender] at h
    · rintro ⟨h, -⟩; cases h
  | true =>
    cases last with
    | none =>
      constructor
      · intro h; simp [canSkipFullRender] at h
      · rintro ⟨-, s, hs, -⟩; cases hs
    | some s =>
      constructor
      · intro h
        have h' : (current == s) = true := h
        exact ⟨rfl, s, rfl, (eq_of_beq h').symm⟩
      · rintro ⟨-, t, ht, hc⟩
        have hst : s = t := by injection ht
        show (current == s) = true
        rw [hst, hc]
        exact beq_self_eq_true current

/-- Witness for claim C4 at concrete inputs. -/
theorem canSkipFullRender_iff_witness :
    canSkipFullRender "s" (some "s") true = true :=
  (canSkipFullRender_iff "s" (some "s") true).mpr ⟨rfl, "s", rfl, rfl⟩

/-- Claim C8: dropping relative to a target that is itself among the moved
paths returns the existing paths unchanged. -/
theorem reorderPathsForDrop_target_moved (existingPaths movedPaths : List String)
    (targetPath : String) (placement : Placement)
    (h : movedPaths.contains targetPath = true) :
    reorderPathsForDrop existingPaths movedPaths (some targetPath) placement =
      existingPaths := by
  have hm : targetPath ∈ movedPaths := by simpa using h
  simp [reorderPathsForDrop, hm]

/-- Witness for claim C8 at a concrete input. -/
theorem reorderPathsForDrop_target_moved_witness :
    (["a", "b"].contains "a" = true) ∧
      reorderPathsForDrop ["x", "a", "b"] ["a", "b"] (some "a")
        Placement.before = ["x", "a", "b"] :=
  ⟨by decide, reorderPathsForDrop_target_moved _ _ _ _ (by decide)⟩

/-- Claim C10 (amended): for a non-empty moved list, when the target path is
null, or is neither among the moved paths nor present in the remaining list
after removing the moved paths, `reorderPathsForDrop` inserts the moved paths
contiguously at the end of the remaining existing paths, preserving the
relative order of both the unmoved and the moved paths. -/
theorem reorderPathsForDrop_end_insertion (existingPaths movedPaths : List String)
    (targetPath : Option String) (placement : Placement)
    (hne : movedPaths ≠ [])
    (htarget : targetPath = none ∨ ∃ t, targetPath = some t ∧ t ∉ movedPaths ∧
      t ∉ existingPaths.filter (fun p => !movedPaths.contains p)) :
    reorderPathsForDrop existingPaths movedPaths targetPath placement =
      existingPaths.filter (fun p => !movedPaths.contains p) ++ movedPaths := by
  rcases htarget with h | ⟨t, rfl, hmoved, hfiltered⟩
  · subst h
    simp [reorderPathsForDrop]
  · have hcontains : movedPaths.contains t = false := by simpa using hmoved
    have hidx : (existingPaths.filter (fun p => !movedPaths.contains p)).findIdx?
        (fun p => p == t) = none := by
      rw [List.findIdx?_eq_none_iff]
      intro x hx
      by_cases hxt : x = t
      · exact absurd (hxt ▸ hx) hfiltered
      · simpa using hxt
    unfold reorderPathsForDrop
    simp only [hcontains, Bool.false_eq_true, if_false, hidx, List.take_length,
      List.drop_length, List.append_nil]

/-- Witness for the amended claim C10 at a concrete input. -/
theorem reorderPathsForDrop_end_insertion_witness :
    reorderPathsForDrop ["a", "b", "c"] ["b"] (some "z") Placement.after =
      ["a", "c", "b"] := by
  have h := reorderPathsForDrop_end_insertion ["a", "b", "c"] ["b"] (some "z")
    Placement.after (by decide)
    (Or.inr ⟨"z", rfl, by decide, by decide⟩)
  simpa using h

/-- Counterexample to claim C10 as stated: a target that is itself among the
moved paths is (vacuously) absent from the remaining list after removing the
moved paths, yet the function returns its input unchanged rather than
appending the moved paths to the end of the remaining paths. -/
theorem reorderPathsForDrop_end_insertion_cex :
    ((["a", "b"].filter (fun p => !(["a"] : List String).contains p)).contains "a"
        = false) ∧
      (["a"] : List String) ≠ [] ∧
      reorderPathsForDrop ["a", "b"] ["a"] (some "a") Placement.before = ["a", "b"] ∧
      reorderPathsForDrop ["a", "b"] ["a"] (some "a") Placement.before ≠
        ["a", "b"].filter (fun p => !(["a"] : List String).contains p) ++ ["a"] := by
  refine ⟨by decide, by decide, by decide, by decide⟩

/-- Generic shape of the push-if loops in `findChangedColumns`: folding a
conditional push over a list appends the filtered, mapped elements. -/
theorem foldl_pushIf {α β : Type} (p : α → Bool) (f : α → β) (l : List α) :
    ∀ acc : List β,
      l.foldl (fun acc x => if p x then acc ++ [f x] else acc) acc =
        acc ++ (l.filter p).map f := by
  induction l with
  | nil => intro acc; simp
  | cons x xs ih =>
    intro acc
    cases hp : p x <;> simp [hp, ih, List.filter_cons]

/-- Cons unfolding for `assocGet`. -/
theorem assocGet_cons {β : Type} (p : String × β) (t : List (String × β))
    (k : String) :
    assocGet (p :: t) k = if p.1 == k then some p.2 else assocGet t k := by
  cases h : (p.1 == k) with
  | true => simp [assocGet, List.find?_cons_of_pos, h]
  | false => simp [assocGet, List.find?_cons_of_neg, h]

/-- A key matching no pair looks up to `none`. -/
theorem assocGet_eq_none {β : Type} (m : List (String × β)) (k : String)
    (h : ∀ q ∈ m, q.1 ≠ k) : assocGet m k = none := by
  unfold assocGet
  rw [List.find?_eq_none.mpr]
  intro q hq
  simpa using h q hq

/-- Under the `Map` key invariant, a member pair is exactly what its key looks
up to. -/
theorem assocGet_of_mem_nodup {β : Type} (m : List (String × β))
    (q : String × β) (hnd : keysNodup m) (hm : q ∈ m) :
    assocGet m q.1 = some q.2 := by
  induction m with
  | nil => cases hm
  | cons p t ih =>
    have hnd' : (p.1 :: t.map Prod.fst).Nodup := hnd
    rw [assocGet_cons]
    rcases List.mem_cons.mp hm with rfl | hmt
    · simp
    · have hne : p.1 ≠ q.1 := by
        intro he
        exact (List.nodup_cons.mp hnd').1
          (he ▸ List.mem_map_of_mem Prod.fst hmt)
      have hbe : (p.1 == q.1) = false := by simpa using hne
      rw [hbe]
      exact ih (List.nodup_cons.mp hnd').2 hmt

/-- Membership characterization of `snapHas`. -/
theorem snapHas_eq_true_iff (s : ColumnSnapshot) (k : String) :
    snapHas s k = true ↔ ∃ kv ∈ s, kv.1 = k := by
  simp [snapHas]

/-- A successful `snapGet` implies `snapHas`. -/
theorem snapHas_of_snapGet_some (s : ColumnSnapshot) (k : String)
    (v : List String) (h : snapGet s k = some v) : snapHas s k = true := by
  unfold snapGet assocGet at h
  cases hf : s.find? (fun p => p.1 == k) with
  | none => rw [hf] at h; cases h
  | some p =>
    have hp := List.find?_some hf
    have hm := List.mem_of_find?_eq_some hf
    exact (snapHas_eq_true_iff s k).mpr ⟨p, hm, by simpa using hp⟩

/-- An absent key (`snapHas` false) looks up to `none`. -/
theorem snapGet_eq_none_of_snapHas_false (s : ColumnSnapshot) (k : String)
    (h : snapHas s k = false) : snapGet s k = none := by
  apply assocGet_eq_none
  intro q hq he
  have ht : snapHas s k = true := (snapHas_eq_true_iff s k).mpr ⟨q, hq, he⟩
  rw [h] at ht
  cases ht

/-- Zipping a list with itself produces no differing pair. -/
theorem zip_self_any_bne (a : List String) :
    (a.zip a).any (fun p => p.1 != p.2) = false := by
  induction a with
  | nil => rfl
  | cons x xs ih => simp [ih]

/-- A path list never differs from itself. -/
theorem pathsDiffer_self (a : List String) : pathsDiffer a a = false := by
  simp [pathsDiffer, zip_self_any_bne]

/-- Equal-length lists with no differing zipped pair are equal. -/
theorem eq_of_zip_any_bne_false {a b : List String} (hlen : a.length = b.length)
    (h : (a.zip b).any (fun p => p.1 != p.2) = false) : a = b := by
  induction a generalizing b with
  | nil => cases b with
    | nil => rfl
    | cons y ys => cases hlen
  | cons x xs ih =>
    cases b with
    | nil => cases hlen
    | cons y ys =>
      simp only [List.zip_cons_cons, List.any_cons, Bool.or_eq_false_iff,
        bne_eq_false_iff_eq] at h
      have hlen' : xs.length = ys.length := by
        simpa using hlen
      rw [h.1, ih hlen' h.2]

/-- `pathsDiffer` returning false means the lists are equal. -/
theorem pathsDiffer_eq_false (a b : List String)
    (h : pathsDiffer a b = false) : a = b := by
  unfold pathsDiffer at h
  by_cases hlen : a.length = b.length
  · rw [if_neg (by simpa using hlen)] at h
    exact eq_of_zip_any_bne_false hlen h
  · rw [if_pos (by simpa using hlen)] at h
    cases h

/-- Claim C6 part (c): `findChangedColumns` lists new/modified columns in the
current snapshot's iteration order, then removed columns in the previous
snapshot's iteration order. -/
theorem findChangedColumns_eq (previous current : ColumnSnapshot) :
    findChangedColumns previous current =
      (current.filter (fun kv => columnChanged previous kv)).map Prod.fst ++
        (previous.filter (fun kv => !snapHas current kv.1)).map Prod.fst := by
  unfold findChangedColumns
  have h2 :
      (fun (acc : List String) (kv : String × List String) =>
        if snapHas current kv.1 then acc else acc ++ [kv.1]) =
      (fun acc kv => if !snapHas current kv.1 then acc ++ [kv.1] else acc) := by
    funext acc kv
    cases h : snapHas current kv.1 <;> simp [h]
  rw [foldl_pushIf (fun kv => columnChanged previous kv) Prod.fst current [],
    h2, foldl_pushIf (fun kv => !snapHas current kv.1) Prod.fst previous]
  simp

/-- Claim C6 part (a): diffing identical snapshots yields no changed column. -/
theorem findChangedColumns_self (s : ColumnSnapshot) (hnd : keysNodup s) :
    findChangedColumns s s = [] := by
  rw [findChangedColumns_eq]
  have h1 : s.filter (fun kv => columnChanged s kv) = [] := by
    rw [List.filter_eq_nil_iff]
    intro kv hkv
    have hg : snapGet s kv.1 = some kv.2 := assocGet_of_mem_nodup s kv hnd hkv
    simp [columnChanged, hg, pathsDiffer_self]
  have h2 : s.filter (fun kv => !snapHas s kv.1) = [] := by
    rw [List.filter_eq_nil_iff]
    intro kv hkv
    have hh : snapHas s kv.1 = true := (snapHas_eq_true_iff s kv.1).mpr ⟨kv, hkv, rfl⟩
    simp [hh]
  rw [h1, h2]
  rfl

/-- Under the key invariant, filtering a snapshot by a present key gives
exactly that pair. -/
theorem filter_key_eq_singleton (s : ColumnSnapshot) (k : String)
    (v : List String) (hnd : keysNodup s) (hget : snapGet s k = some v) :
    s.filter (fun kv => kv.1 == k) = [(k, v)] := by
  induction s with
  | nil => cases hget
  | cons p t ih =>
    have hnd' : (p.1 :: t.map Prod.fst).Nodup := hnd
    rw [show snapGet (p :: t) k = if p.1 == k then some p.2 else snapGet t k
      from assocGet_cons p t k] at hget
    cases hpk : (p.1 == k) with
    | true =>
      rw [hpk, if_pos rfl] at hget
      have hv : p.2 = v := by injection hget
      have hk : p.1 = k := eq_of_beq hpk
      have htail : t.filter (fun kv => kv.1 == k) = [] := by
        rw [List.filter_eq_nil_iff]
        intro kv hkv hbe
        have : kv.1 = k := eq_of_beq hbe
        exact (List.nodup_cons.mp hnd').1
          (hk ▸ this ▸ List.mem_map_of_mem Prod.fst hkv)
      rw [List.filter_cons, if_pos (by simpa using hpk), htail]
      rw [show p = (k, v) from Prod.ext hk hv]
    | false =>
      rw [hpk, if_neg (by simp)] at hget
      rw [List.filter_cons, if_neg (by simp [hpk])]
      exact ih (List.nodup_cons.mp hnd').2 hget

/-- Claim C6 part (b): snapshots agreeing everywhere except at one column
whose ordered path list differs diff to exactly that column key. -/
theorem findChangedColumns_single (previous current : ColumnSnapshot)
    (k0 : String) (a b : List String)
    (hndp : keysNodup previous) (hndc : keysNodup current)
    (hagree : ∀ k, k ≠ k0 → snapGet previous k = snapGet current k)
    (hpa : snapGet previous k0 = some a) (hcb : snapGet current k0 = some b)
    (hab : a ≠ b) :
    findChangedColumns previous current = [k0] := by
  rw [findChangedColumns_eq]
  have hchanged : ∀ kv ∈ current, columnChanged previous kv = (kv.1 == k0) := by
    intro kv hkv
    have hget : snapGet current kv.1 = some kv.2 :=
      assocGet_of_mem_nodup current kv hndc hkv
    by_cases hk : kv.1 = k0
    · have hb : kv.2 = b := by
        rw [hk] at hget
        rw [hget] at hcb
        injection hcb
      have hpd : pathsDiffer kv.2 a = true := by
        cases hpd : pathsDiffer kv.2 a with
        | true => rfl
        | false =>
          have e1 : kv.2 = a := pathsDiffer_eq_false kv.2 a hpd
          rw [hb] at e1
          exact absurd e1.symm hab
      simp [columnChanged, hk, hpa, hpd]
    · have hsame : snapGet previous kv.1 = snapGet current kv.1 := hagree kv.1 hk
      rw [hget] at hsame
      simp [columnChanged, hsame, pathsDiffer_self, hk]
  have h1 : current.filter (fun kv => columnChanged previous kv) = [(k0, b)] := by
    rw [List.filter_congr hchanged]
    exact filter_key_eq_singleton current k0 b hndc hcb
  have h2 : previous.filter (fun kv => !snapHas current kv.1) = [] := by
    rw [List.filter_eq_nil_iff]
    intro kv hkv
    have hh : snapHas current kv.1 = true := by
      by_cases hk : kv.1 = k0
      · exact hk ▸ snapHas_of_snapGet_some current k0 b hcb
      · have hget : snapGet previous kv.1 = some kv.2 :=
          assocGet_of_mem_nodup previous kv hndp hkv
        have := (hagree kv.1 hk).symm.trans hget
        exact snapHas_of_snapGet_some current kv.1 kv.2 this
    simp [hh]
  rw [h1, h2]
  rfl

/-- Claim C6: diffing identical snapshots yields the empty list; diffing
snapshots that differ only in one column's ordered path list yields exactly
that column key; and the changed-column list is the new/modified columns in
current iteration order followed by the removed columns in previous iteration
order. -/
theorem findChangedColumns_spec :
    (∀ s : ColumnSnapshot, keysNodup s → findChangedColumns s s = []) ∧
    (∀ (previous current : ColumnSnapshot) (k0 : String) (a b : List String),
      keysNodup previous → keysNodup current →
      (∀ k, k ≠ k0 → snapGet previous k = snapGet current k) →
      snapGet previous k0 = some a → snapGet current k0 = some b → a ≠ b →
      findChangedColumns previous current = [k0]) ∧
    (∀ previous current : ColumnSnapshot,
      findChangedColumns previous current =
        (current.filter (fun kv => columnChanged previous kv)).map Prod.fst ++
          (previous.filter (fun kv => !snapHas current kv.1)).map Prod.fst) :=
  ⟨findChangedColumns_self, findChangedColumns_single, findChangedColumns_eq⟩

/-- Witness for claim C6 at concrete snapshots. -/
theorem findChangedColumns_spec_witness :
    findChangedColumns [("a", ["p"])] [("a", ["p"])] = [] ∧
      findChangedColumns [("a", ["p"]), ("c", [])] [("a", ["q"]), ("c", [])] = ["a"] := by
  constructor
  · exact findChangedColumns_spec.1 [("a", ["p"])] (by simp [keysNodup])
  · refine findChangedColumns_spec.2.1 [("a", ["p"]), ("c", [])]
      [("a", ["q"]), ("c", [])] "a" ["p"] ["q"]
      (by simp [keysNodup]) (by simp [keysNodup]) ?_ (by decide) (by decide)
      (by decide)
    intro k hk
    have h1 : (("a" : String) == k) = false := by
      simpa using fun he => hk he.symm
    simp [snapGet, assocGet_cons, h1]

/-- `Map.set` preserves distinctness of keys. -/
theorem keysNodup_assocSet {β : Type} (m : List (String × β)) (k : String)
    (v : β) (h : keysNodup m) : keysNodup (assocSet m k v) := by
  unfold assocSet
  by_cases hc : m.any (fun p => p.1 == k) = true
  · rw [if_pos hc]
    have hkeys : (m.map (fun p => if p.1 == k then (k, v) else p)).map Prod.fst
        = m.map Prod.fst := by
      rw [List.map_map]
      apply List.map_congr_left
      intro p hp
      by_cases hpk : (p.1 == k) = true
      · simp only [Function.comp_apply, hpk, if_pos]
        exact (eq_of_beq hpk).symm
      · simp only [Function.comp_apply, hpk]
        simp
    unfold keysNodup
    rw [hkeys]
    exact h
  · rw [if_neg hc]
    have hk : k ∉ m.map Prod.fst := by
      intro hmem
      rcases List.mem_map.mp hmem with ⟨p, hp, rfl⟩
      exact hc (List.any_eq_true.mpr ⟨p, hp, by simp⟩)
    unfold keysNodup at h ⊢
    rw [List.map_append]
    simp only [List.map_cons, List.map_nil]
    refine List.nodup_append.mpr ⟨h, List.nodup_singleton k, ?_⟩
    intro a ha hb
    have hak : a = k := by simpa using hb
    exact hk (hak ▸ ha)

/-- The snapshot built by `computeColumnSnapshots` satisfies the `Map` key
invariant. -/
theorem keysNodup_computeColumnSnapshots (renderedGroups : List RenderedGroup) :
    keysNodup (computeColumnSnapshots renderedGroups) := by
  unfold computeColumnSnapshots
  have hgen : ∀ (l : List RenderedGroup) (m : ColumnSnapshot), keysNodup m →
      keysNodup (l.foldl
        (fun snapshots rg =>
          assocSet snapshots (getColumnKey rg.group.key)
            (rg.entries.map (fun e => e.path))) m) := by
    intro l
    induction l with
    | nil => intro m hm; exact hm
    | cons rg t ih =>
      intro m hm
      exact ih _ (keysNodup_assocSet _ _ _ hm)
  exact hgen _ [] (by simp [keysNodup])

/-- Inversion of the successful branch of `canRenderPartially`: reaching
`canPartial = true` requires equal snapshot sizes, no changed column missing
from the previous snapshot, and a non-empty changed set. -/
theorem canRenderPartially_true_inversion (renderedGroups : List RenderedGroup)
    (prev : ColumnSnapshot) (h : Bool)
    (hp : (canRenderPartially renderedGroups prev h).canPartial = true) :
    (computeColumnSnapshots renderedGroups).length = prev.length ∧
      (findChangedColumns prev (computeColumnSnapshots renderedGroups)).any
        (fun key => !snapHas prev key) = false ∧
      findChangedColumns prev (computeColumnSnapshots renderedGroups) ≠ [] := by
  simp only [canRenderPartially] at hp
  by_cases c1 : (!h || prev.length == 0) = true
  · rw [if_pos c1] at hp
    cases hp
  · rw [if_neg c1] at hp
    by_cases c2 : ((findChangedColumns prev
        (computeColumnSnapshots renderedGroups)).length == 0) = true
    · rw [if_pos c2] at hp
      cases hp
    · rw [if_neg c2] at hp
      by_cases c3 : ((computeColumnSnapshots renderedGroups).length != prev.length ||
          (findChangedColumns prev (computeColumnSnapshots renderedGroups)).any
            (fun key => !snapHas prev key)) = true
      · rw [if_pos c3] at hp
        cases hp
      · have c3f : ((computeColumnSnapshots renderedGroups).length != prev.length ||
            (findChangedColumns prev (computeColumnSnapshots renderedGroups)).any
              (fun key => !snapHas prev key)) = false := by
          simpa using c3
        have hcomp := Bool.or_eq_false_iff.mp c3f
        refine ⟨bne_eq_false_iff_eq.mp hcomp.1, hcomp.2, ?_⟩
        intro hnil
        exact c2 (by rw [hnil]; rfl)

/-- Claim C5: whenever the column-key sets of the current and previous
snapshots differ, `canRenderPartially` refuses the partial path. -/
theorem canRenderPartially_keyset_differ (renderedGroups : List RenderedGroup)
    (prev : ColumnSnapshot) (h : Bool)
    (hdiff : ∃ k, snapHas (computeColumnSnapshots renderedGroups) k ≠
      snapHas prev k) :
    (canRenderPartially renderedGroups prev h).canPartial = false := by
  cases hp : (canRenderPartially renderedGroups prev h).canPartial with
  | false => rfl
  | true =>
    exfalso
    obtain ⟨hlen, hany, hnonnil⟩ := canRenderPartially_true_inversion _ _ _ hp
    obtain ⟨k0, hk0⟩ := hdiff
    have hndc : keysNodup (computeColumnSnapshots renderedGroups) :=
      keysNodup_computeColumnSnapshots _
    cases hc : snapHas (computeColumnSnapshots renderedGroups) k0 with
    | true =>
      have hpv : snapHas prev k0 = false := by
        cases hpv : snapHas prev k0 with
        | false => rfl
        | true => rw [hc, hpv] at hk0; exact absurd rfl hk0
      obtain ⟨kv, hkv, hkeq⟩ :=
        (snapHas_eq_true_iff (computeColumnSnapshots renderedGroups) k0).mp hc
      have hgn : snapGet prev kv.1 = none := by
        rw [hkeq]
        exact snapGet_eq_none_of_snapHas_false prev k0 hpv
      have hcc : columnChanged prev kv = true := by simp [columnChanged, hgn]
      have hmem : k0 ∈ findChangedColumns prev (computeColumnSnapshots renderedGroups) := by
        rw [findChangedColumns_eq]
        exact List.mem_append_left _
          (hkeq ▸ List.mem_map_of_mem Prod.fst (List.mem_filter.mpr ⟨hkv, hcc⟩))
      have hanyT : (findChangedColumns prev (computeColumnSnapshots renderedGroups)).any
          (fun key => !snapHas prev key) = true :=
        List.any_eq_true.mpr ⟨k0, hmem, by simp [hpv]⟩
      rw [hany] at hanyT
      cases hanyT
    | false =>
      have hpv : snapHas prev k0 = true := by
        cases hpv : snapHas prev k0 with
        | true => rfl
        | false => rw [hc, hpv] at hk0; exact absurd rfl hk0
      by_cases hsub : ∀ k ∈ (computeColumnSnapshots renderedGroups).map Prod.fst,
          snapHas prev k = true
      · have hsubset : (computeColumnSnapshots renderedGroups).map Prod.fst ⊆
            prev.map Prod.fst := by
          intro k hk
          obtain ⟨kv, hkv, hkeq⟩ := (snapHas_eq_true_iff prev k).mp (hsub k hk)
          exact hkeq ▸ List.mem_map_of_mem Prod.fst hkv
        have hsp := List.Nodup.subperm hndc hsubset
        have hperm := List.Subperm.perm_of_length_le hsp (by
          simp only [List.length_map]
          exact le_of_eq hlen.symm)
        have hk0cur : k0 ∈ (computeColumnSnapshots renderedGroups).map Prod.fst := by
          rw [hperm.mem_iff]
          obtain ⟨kv, hkv, hkeq⟩ := (snapHas_eq_true_iff prev k0).mp hpv
          exact hkeq ▸ List.mem_map_of_mem Prod.fst hkv
        obtain ⟨kv, hkv, hkeq⟩ := List.mem_map.mp hk0cur
        have hcT : snapHas (computeColumnSnapshots renderedGroups) k0 = true :=
          (snapHas_eq_true_iff _ k0).mpr ⟨kv, hkv, hkeq⟩
        rw [hc] at hcT
        cases hcT
      · push_neg at hsub
        obtain ⟨k1, hk1cur, hk1prev⟩ := hsub
        have hk1f : snapHas prev k1 = false := by
          cases hv : snapHas prev k1 with
          | false => rfl
          | true => exact absurd hv hk1prev
        obtain ⟨kv, hkv, hkeq⟩ := List.mem_map.mp hk1cur
        have hgn : snapGet prev kv.1 = none := by
          rw [hkeq]
          exact snapGet_eq_none_of_snapHas_false prev k1 hk1f
        have hcc : columnChanged prev kv = true := by simp [columnChanged, hgn]
        have hmem : k1 ∈ findChangedColumns prev (computeColumnSnapshots renderedGroups) := by
          rw [findChangedColumns_eq]
          exact List.mem_append_left _
            (hkeq ▸ List.mem_map_of_mem Prod.fst (List.mem_filter.mpr ⟨hkv, hcc⟩))
        have hanyT : (findChangedColumns prev (computeColumnSnapshots renderedGroups)).any
            (fun key => !snapHas prev key) = true :=
          List.any_eq_true.mpr ⟨k1, hmem, by simp [hk1f]⟩
        rw [hany] at hanyT
        cases hanyT

/-- Witness for claim C5 at a concrete input. -/
theorem canRenderPartially_keyset_differ_witness :
    (canRenderPartially [] [("a", ["p"])] true).canPartial = false :=
  canRenderPartially_keyset_differ [] [("a", ["p"])] true ⟨"a", by decide⟩

/-- Membership in the first-occurrence fold, generalized over the
accumulator. -/
theorem mem_foldl_firstOccurrence (ks : List String) :
    ∀ (acc : List String) (k : String),
      k ∈ ks.foldl (fun acc k => if acc.contains k then acc else acc ++ [k]) acc ↔
        k ∈ acc ∨ k ∈ ks := by
  induction ks with
  | nil => intro acc k; simp
  | cons x xs ih =>
    intro acc k
    simp only [List.foldl_cons]
    by_cases hc : acc.contains x = true
    · rw [if_pos hc, ih]
      have hx : x ∈ acc := by simpa using hc
      constructor
      · rintro (h | h)
        · exact Or.inl h
        · exact Or.inr (List.mem_cons_of_mem x h)
      · rintro (h | h)
        · exact Or.inl h
        · rcases List.mem_cons.mp h with rfl | h
          · exact Or.inl hx
          · exact Or.inr h
    · rw [if_neg hc, ih]
      simp only [List.mem_append, List.mem_singleton, List.mem_cons]
      tauto

/-- `firstOccurrenceKeys` has the same members as its input. -/
theorem mem_firstOccurrenceKeys (ks : List String) (k : String) :
    k ∈ firstOccurrenceKeys ks ↔ k ∈ ks := by
  unfold firstOccurrenceKeys
  rw [mem_foldl_firstOccurrence]
  simp

/-- Unfolding `firstOccurrenceKeys` over a snoc. -/
theorem firstOccurrenceKeys_append_singleton (ks : List String) (k : String) :
    firstOccurrenceKeys (ks ++ [k]) =
      if (firstOccurrenceKeys ks).contains k then firstOccurrenceKeys ks
      else firstOccurrenceKeys ks ++ [k] := by
  unfold firstOccurrenceKeys
  rw [List.foldl_append]
  rfl

/-- `assocGet` misses exactly when no pair carries the key. -/
theorem assocGet_none_iff {β : Type} (m : List (String × β)) (k : String) :
    assocGet m k = none ↔ ∀ q ∈ m, q.1 ≠ k := by
  constructor
  · intro h q hq he
    subst he
    unfold assocGet at h
    cases hf : m.find? (fun p => p.1 == q.1) with
    | some p => rw [hf] at h; cases h
    | none =>
      have := List.find?_eq_none.mp hf q hq
      simp at this
  · exact assocGet_eq_none m k

/-- A successful `assocGet` exhibits the key among the stored keys. -/
theorem mem_keys_of_assocGet_some {β : Type} (m : List (String × β))
    (k : String) (v : β) (h : assocGet m k = some v) : k ∈ m.map Prod.fst := by
  unfold assocGet at h
  cases hf : m.find? (fun p => p.1 == k) with
  | none => rw [hf] at h; cases h
  | some p =>
    have hp := List.find?_some hf
    have hm := List.mem_of_find?_eq_some hf
    have : p.1 = k := by simpa using hp
    exact this ▸ List.mem_map_of_mem Prod.fst hm

/-- Unfolding of `mergeGroupsAux` for a fresh column key. -/
theorem mergeGroupsAux_none (m : List (String × Group)) (g : Group)
    (h : assocGet m (getColumnKey g.key) = none) :
    mergeGroupsAux m g = m ++ [(getColumnKey g.key,
      { key := g.key, hasKey := g.hasKey, entries := g.entries })] := by
  show (match assocGet m (getColumnKey g.key) with
    | none => m ++ [(getColumnKey g.key,
        ({ key := g.key, hasKey := g.hasKey, entries := g.entries } : Group))]
    | some _ => m.map (mergeUpdate (getColumnKey g.key) g)) = _
  rw [h]

/-- Unfolding of `mergeGroupsAux` for an already-present column key. -/
theorem mergeGroupsAux_some (m : List (String × Group)) (g : Group) (gr : Group)
    (h : assocGet m (getColumnKey g.key) = some gr) :
    mergeGroupsAux m g = m.map (mergeUpdate (getColumnKey g.key) g) := by
  show (match assocGet m (getColumnKey g.key) with
    | none => m ++ [(getColumnKey g.key,
        ({ key := g.key, hasKey := g.hasKey, entries := g.entries } : Group))]
    | some _ => m.map (mergeUpdate (getColumnKey g.key) g)) = _
  rw [h]

/-- `mergeUpdate` leaves every key in place. -/
theorem map_fst_mergeUpdate (ck : String) (g : Group)
    (m : List (String × Group)) :
    (m.map (mergeUpdate ck g)).map Prod.fst = m.map Prod.fst := by
  rw [List.map_map]
  apply List.map_congr_left
  intro p hp
  simp only [Function.comp_apply]
  unfold mergeUpdate
  split <;> rfl

/-- Updating the unique pair carrying `ck` adds that group's entry count to
the total. -/
theorem sum_map_mergeUpdate (ck : String) (g : Group) :
    ∀ m : List (String × Group), (m.map Prod.fst).Nodup →
      ck ∈ m.map Prod.fst →
      ((m.map (mergeUpdate ck g)).map (fun p => p.2.entries.length)).sum =
        (m.map (fun p => p.2.entries.length)).sum + g.entries.length := by
  intro m
  induction m with
  | nil => intro _ h; cases h
  | cons p t ih =>
    intro hnd hmem
    have hnd' : (p.1 :: t.map Prod.fst).Nodup := hnd
    simp only [List.map_cons, List.sum_cons]
    by_cases hpk : (p.1 == ck) = true
    · have hck : p.1 = ck := eq_of_beq hpk
      have htail : t.map (mergeUpdate ck g) = t := by
        have hcongr : ∀ q ∈ t, mergeUpdate ck g q = q := by
          intro q hq
          have hqk : q.1 ≠ ck := by
            intro he
            exact (List.nodup_cons.mp hnd').1
              (hck ▸ he ▸ List.mem_map_of_mem Prod.fst hq)
          unfold mergeUpdate
          rw [if_neg (by simpa using hqk)]
        have h2 : t.map (mergeUpdate ck g) = t.map id := List.map_congr_left hcongr
        simpa using h2
      rw [htail]
      unfold mergeUpdate
      rw [if_pos hpk]
      simp only [List.length_append]
      omega
    · have hhead : mergeUpdate ck g p = p := by
        unfold mergeUpdate
        rw [if_neg hpk]
      have hmem' : ck ∈ t.map Prod.fst := by
        rcases List.mem_cons.mp hmem with he | ht
        · exact absurd (by simpa using he.symm : (p.1 == ck) = true) hpk
        · exact ht
      rw [hhead, ih (List.nodup_cons.mp hnd').2 hmem']
      omega

/-- One step of the merge fold preserves the loop invariant. -/
theorem mergeGroupsAux_step (pre : List Group) (m : List (String × Group))
    (g : Group) (hinv : MergeInv pre m) :
    MergeInv (pre ++ [g]) (mergeGroupsAux m g) := by
  obtain ⟨h1, h2, h3, h4, h5, h6⟩ := hinv
  have hmapkeys : (pre ++ [g]).map (fun x => getColumnKey x.key) =
      pre.map (fun x => getColumnKey x.key) ++ [getColumnKey g.key] := by
    simp
  cases hget : assocGet m (getColumnKey g.key) with
  | none =>
    rw [mergeGroupsAux_none m g hget]
    have hknotin : getColumnKey g.key ∉ m.map Prod.fst := by
      intro hmem
      rcases List.mem_map.mp hmem with ⟨q, hq, hqe⟩
      exact (assocGet_none_iff m _).mp hget q hq hqe
    have hknotpre : ∀ x ∈ pre, getColumnKey x.key ≠ getColumnKey g.key := by
      intro x hx he
      apply hknotin
      rw [h2, mem_firstOccurrenceKeys]
      exact he ▸ List.mem_map_of_mem (fun y => getColumnKey y.key) hx
    have hcont : (firstOccurrenceKeys (pre.map (fun x => getColumnKey x.key))).contains
        (getColumnKey g.key) = false := by
      rw [← h2]
      simpa using hknotin
    have hfilterOld : ∀ p : String × Group, p ∈ m →
        (pre ++ [g]).filter (fun x => getColumnKey x.key == p.1) =
          pre.filter (fun x => getColumnKey x.key == p.1) := by
      intro p hp
      have hpg : ¬((getColumnKey g.key == p.1) = true) := by
        intro hbe
        exact hknotin ((eq_of_beq hbe) ▸ List.mem_map_of_mem Prod.fst hp)
      rw [List.filter_append, List.filter_cons, if_neg hpg, List.filter_nil,
        List.append_nil]
    have hfilterNew : (pre ++ [g]).filter
        (fun x => getColumnKey x.key == getColumnKey g.key) = [g] := by
      have hpre : pre.filter (fun x => getColumnKey x.key == getColumnKey g.key) = [] := by
        rw [List.filter_eq_nil_iff]
        intro x hx hbe
        exact hknotpre x hx (eq_of_beq hbe)
      rw [List.filter_append, hpre, List.nil_append, List.filter_cons,
        if_pos (by simp), List.filter_nil]
    refine ⟨?_, ?_, ?_, ?_, ?_, ?_⟩
    · intro p hp
      rcases List.mem_append.mp hp with hp | hp
      · exact h1 p hp
      · rcases List.mem_singleton.mp hp with rfl
        rfl
    · rw [hmapkeys, firstOccurrenceKeys_append_singleton, if_neg (by rw [hcont]; simp),
        ← h2]
      simp
    · rw [List.map_append]
      simp only [List.map_cons, List.map_nil]
      refine List.nodup_append.mpr ⟨h3, List.nodup_singleton _, ?_⟩
      intro a ha hb
      have hak : a = getColumnKey g.key := by simpa using hb
      exact hknotin (hak ▸ ha)
    · intro p hp
      rcases List.mem_append.mp hp with hp | hp
      · rw [hfilterOld p hp]
        exact h4 p hp
      · rcases List.mem_singleton.mp hp with rfl
        rw [hfilterNew]
        simp
    · intro p hp
      rcases List.mem_append.mp hp with hp | hp
      · rw [hfilterOld p hp]
        exact h5 p hp
      · rcases List.mem_singleton.mp hp with rfl
        rw [hfilterNew]
        simp
    · rw [List.map_append, List.sum_append]
      simp only [List.map_cons, List.map_nil, List.sum_cons, List.sum_nil]
      rw [h6]
      simp [sumEntryCounts]
  | some gr =>
    rw [mergeGroupsAux_some m g gr hget]
    have hckin : getColumnKey g.key ∈ m.map Prod.fst :=
      mem_keys_of_assocGet_some m _ gr hget
    have hkeys : (m.map (mergeUpdate (getColumnKey g.key) g)).map Prod.fst =
        m.map Prod.fst := map_fst_mergeUpdate _ g m
    have hcont : (firstOccurrenceKeys (pre.map (fun x => getColumnKey x.key))).contains
        (getColumnKey g.key) = true := by
      rw [← h2]
      simpa using hckin
    refine ⟨?_, ?_, ?_, ?_, ?_, ?_⟩
    · intro p' hp'
      rcases List.mem_map.mp hp' with ⟨p, hp, rfl⟩
      unfold mergeUpdate
      split
      · exact h1 p hp
      · exact h1 p hp
    · rw [hkeys, hmapkeys, firstOccurrenceKeys_append_singleton, if_pos hcont]
      exact h2
    · rw [hkeys]
      exact h3
    · intro p' hp'
      rcases List.mem_map.mp hp' with ⟨p, hp, rfl⟩
      unfold mergeUpdate
      by_cases hpk : (p.1 == getColumnKey g.key) = true

      · have hck : p.1 = getColumnKey g.key := eq_of_beq hpk
        rw [if_pos hpk]
        show (p.2.hasKey || g.hasKey) =
          ((pre ++ [g]).filter (fun x => getColumnKey x.key == p.1)).any
            (fun x => x.hasKey)
        rw [List.filter_append, List.filter_cons,
          if_pos (by simpa using hck.symm), List.filter_nil, List.any_append]
        simp [h4 p hp]
      · rw [if_neg hpk]
        have hck : ¬((getColumnKey g.key == p.1) = true) := by
          intro hbe
          exact hpk (by simpa using (eq_of_beq hbe).symm)
        rw [List.filter_append, List.filter_cons, if_neg hck,
          List.filter_nil, List.append_nil]
        exact h4 p hp
    · intro p' hp'
      rcases List.mem_map.mp hp' with ⟨p, hp, rfl⟩
      unfold mergeUpdate
      by_cases hpk : (p.1 == getColumnKey g.key) = true
      · have hck : p.1 = getColumnKey g.key := eq_of_beq hpk
        rw [if_pos hpk]
        show p.2.entries ++ g.entries =
          (((pre ++ [g]).filter (fun x => getColumnKey x.key == p.1)).map
            (fun x => x.entries)).flatten
        rw [List.filter_append, List.filter_cons,
          if_pos (by simpa using hck.symm), List.filter_nil, List.map_append,
          List.flatten_append]
        simp [h5 p hp]
      · rw [if_neg hpk]
        have hck : ¬((getColumnKey g.key == p.1) = true) := by
          intro hbe
          exact hpk (by simpa using (eq_of_beq hbe).symm)
        rw [List.filter_append, List.filter_cons, if_neg hck,
          List.filter_nil, List.append_nil]
        exact h5 p hp
    · rw [sum_map_mergeUpdate _ g m h3 hckin, h6]
      simp [sumEntryCounts]

/-- The merge fold carries the loop invariant across any suffix of groups. -/
theorem mergeGroupsAux_foldl_inv (gs : List Group) :
    ∀ (pre : List Group) (m : List (String × Group)), MergeInv pre m →
      MergeInv (pre ++ gs) (gs.foldl mergeGroupsAux m) := by
  induction gs with
  | nil => intro pre m h; simpa using h
  | cons g t ih =>
    intro pre m h
    have hstep := mergeGroupsAux_step pre m g h
    have := ih (pre ++ [g]) (mergeGroupsAux m g) hstep
    simpa [List.append_assoc] using this

/-- The empty state satisfies the merge invariant. -/
theorem mergeInv_nil : MergeInv [] [] := by
  refine ⟨?_, ?_, ?_, ?_, ?_, ?_⟩ <;> simp [firstOccurrenceKeys, sumEntryCounts]

/-- Claim C2: `mergeGroupsByColumnKey` yields groups with pairwise-distinct
normalized column keys, in the first-occurrence order of the input's column
keys, preserving the total entry count, with each merged group's `hasKey` the
OR of the `hasKey` flags of the input groups sharing its key. -/
theorem mergeGroupsByColumnKey_spec (groups : List Group) :
    ((mergeGroupsByColumnKey groups).map (fun g => getColumnKey g.key)).Nodup ∧
      sumEntryCounts (mergeGroupsByColumnKey groups) = sumEntryCounts groups ∧
      (mergeGroupsByColumnKey groups).map (fun g => getColumnKey g.key) =
        firstOccurrenceKeys (groups.map (fun g => getColumnKey g.key)) ∧
      (mergeGroupsByColumnKey groups).all (fun gr =>
        gr.hasKey ==
          (groups.filter (fun x =>
            getColumnKey x.key == getColumnKey gr.key)).any
            (fun x => x.hasKey)) = true := by
  obtain ⟨h1, h2, h3, h4, h5, h6⟩ :=
    mergeGroupsAux_foldl_inv groups [] [] mergeInv_nil
  have hkeysmap : (mergeGroupsByColumnKey groups).map (fun g => getColumnKey g.key) =
      (groups.foldl mergeGroupsAux []).map Prod.fst := by
    unfold mergeGroupsByColumnKey
    rw [List.map_map]
    apply List.map_congr_left
    intro p hp
    exact h1 p hp
  refine ⟨?_, ?_, ?_, ?_⟩
  · rw [hkeysmap]
    exact h3
  · unfold mergeGroupsByColumnKey sumEntryCounts
    rw [List.map_map]
    exact h6
  · rw [hkeysmap]
    simpa using h2
  · rw [List.all_eq_true]
    intro gr hgr
    rcases List.mem_map.mp hgr with ⟨p, hp, rfl⟩
    have hkey : getColumnKey p.2.key = p.1 := h1 p hp
    rw [hkey]
    exact beq_iff_eq.mpr (h4 p hp)

/-- Generic shape of the conditional-push loop building `nextEntries` in
`applyLocalCardOrder`: any fold body behaving as "append on a hit, keep on a
miss" computes `filterMap`. -/
theorem foldl_push_general {α β : Type} (f : List β → α → List β)
    (g : α → Option β)
    (hf : ∀ (acc : List β) (x : α), f acc x =
      match g x with
      | none => acc
      | some y => acc ++ [y])
    (l : List α) :
    ∀ acc : List β, l.foldl f acc = acc ++ l.filterMap g := by
  induction l with
  | nil => intro acc; simp
  | cons x xs ih =>
    intro acc
    rw [List.foldl_cons, hf]
    cases hg : g x <;> simp [hg, ih, List.filterMap_cons]

/-- Inserting a fresh key into a map appends the pair. -/
theorem assocSet_fresh {β : Type} (m : List (String × β)) (k : String) (v : β)
    (h : k ∉ m.map Prod.fst) : assocSet m k v = m ++ [(k, v)] := by
  unfold assocSet
  rw [if_neg]
  intro hany
  rcases List.any_eq_true.mp hany with ⟨p, hp, hbe⟩
  exact h ((eq_of_beq hbe) ▸ List.mem_map_of_mem Prod.fst hp)

/-- With pairwise-distinct entry paths, the `entryByPath` fold just pairs each
entry with its path. -/
theorem buildEntryByPath_foldl (es : List Entry) :
    ∀ m : List (String × Entry),
      (∀ e ∈ es, e.path ∉ m.map Prod.fst) →
      (es.map (fun e => e.path)).Nodup →
      es.foldl (fun m e => assocSet m e.path e) m =
        m ++ es.map (fun e => (e.path, e)) := by
  induction es with
  | nil => intro m _ _; simp
  | cons e t ih =>
    intro m hnotin hnd
    have hnd' : (e.path :: t.map (fun e => e.path)).Nodup := hnd
    simp only [List.foldl_cons]
    rw [assocSet_fresh m e.path e (hnotin e (List.mem_cons_self e t))]
    rw [ih (m ++ [(e.path, e)]) ?_ (List.nodup_cons.mp hnd').2]
    · simp
    · intro x hx hmem
      rw [List.map_append] at hmem
      rcases List.mem_append.mp hmem with hmem | hmem
      · exact hnotin x (List.mem_cons_of_mem e hx) hmem
      · have hxe : x.path = e.path := by simpa using hmem
        exact (List.nodup_cons.mp hnd').1
          (hxe ▸ List.mem_map_of_mem (fun y => y.path) hx)

/-- `buildEntryByPath` under the distinct-path invariant. -/
theorem buildEntryByPath_eq (es : List Entry)
    (hnd : (es.map (fun e => e.path)).Nodup) :
    buildEntryByPath es = es.map (fun e => (e.path, e)) := by
  unfold buildEntryByPath
  have h := buildEntryByPath_foldl es [] (by simp) hnd
  simpa using h

/-- Looking a path up in the paired map is `find?` on the entries. -/
theorem assocGet_map_pair (es : List Entry) (p : String) :
    assocGet (es.map (fun e => (e.path, e))) p =
      es.find? (fun e => e.path == p) := by
  unfold assocGet
  rw [List.find?_map]
  cases hf : es.find? (fun e => e.path == p) with
  | none =>
    rw [show es.find? ((fun q : String × Entry => q.1 == p) ∘
      (fun e => (e.path, e))) = none from hf]
    rfl
  | some e =>
    rw [show es.find? ((fun q : String × Entry => q.1 == p) ∘
      (fun e => (e.path, e))) = some e from hf]
    rfl

/-- Closed form of `applyLocalCardOrder` when a non-empty saved order exists. -/
theorem applyLocalCardOrder_cons (columnKey : String) (entries : List Entry)
    (m : List (String × List String)) (o : String) (ot : List String)
    (hget : assocGet m columnKey = some (o :: ot)) :
    applyLocalCardOrder columnKey entries m =
      entries.filter (fun e =>
        !((o :: ot).filter
          (fun path => (assocGet (buildEntryByPath entries) path).isSome)).contains
            e.path) ++
      (o :: ot).foldl (fun acc path =>
        match assocGet (buildEntryByPath entries) path with
        | none => acc
        | some e => acc ++ [e]) [] := by
  unfold applyLocalCardOrder
  rw [hget]
  rfl

/-- Claim C3's general clause: with distinct entry paths, the applied order is
the entries missing from the saved list (in their original relative order)
prepended ahead of the saved identifiers' entries in saved order, stale saved
identifiers skipped. -/
theorem applyLocalCardOrder_eq (columnKey : String) (entries : List Entry)
    (m : List (String × List String))
    (hnd : (entries.map (fun e => e.path)).Nodup) :
    applyLocalCardOrder columnKey entries m =
      entries.filter
        (fun e => !((assocGet m columnKey).getD []).contains e.path) ++
      ((assocGet m columnKey).getD []).filterMap
        (fun path => entries.find? (fun e => e.path == path)) := by
  cases hget : assocGet m columnKey with
  | none =>
    unfold applyLocalCardOrder
    rw [hget]
    simp
  | some ord =>
    cases ord with
    | nil =>
      unfold applyLocalCardOrder
      rw [hget]
      simp
    | cons o ot =>
      rw [applyLocalCardOrder_cons columnKey entries m o ot hget]
      rw [buildEntryByPath_eq entries hnd]
      simp only [assocGet_map_pair]
      congr 1
      · apply List.filter_congr
        intro e he
        have hsome : (entries.find? (fun e2 => e2.path == e.path)).isSome = true := by
          rw [List.find?_isSome]
          exact ⟨e, he, by simp⟩
        have hcont : ((o :: ot).filter
            (fun path => (entries.find? (fun e2 => e2.path == path)).isSome)).contains
              e.path = (o :: ot).contains e.path := by
          by_cases hmem : e.path ∈ (o :: ot)
          · have h1 : e.path ∈ (o :: ot).filter
                (fun path => (entries.find? (fun e2 => e2.path == path)).isSome) :=
              List.mem_filter.mpr ⟨hmem, hsome⟩
            have h2 : (o :: ot).contains e.path = true := by simpa using hmem
            rw [h2]
            simpa using h1
          · have h1 : e.path ∉ (o :: ot).filter
                (fun path => (entries.find? (fun e2 => e2.path == path)).isSome) :=
              fun hx => hmem (List.mem_filter.mp hx).1
            have h2 : (o :: ot).contains e.path = false := by simpa using hmem
            rw [h2]
            simpa using h1
        rw [hcont]
        rfl
      · refine (foldl_push_general _
          (fun path => entries.find? (fun e => e.path == path)) ?_ (o :: ot)
          []).trans (List.nil_append _)
        intro acc path
        cases hg : entries.find? (fun e => e.path == path) <;> simp [hg]

/-- Claim C3 (amended): the general reordering clause, together with the
worked example corrected to its actual output: saved order `[B, A]` over
entries `[A, B, C]` yields `[C, B, A]` (the new entry `C` prepended, then `B`
and `A` in saved order). -/
theorem applyLocalCardOrder_spec :
    (∀ (columnKey : String) (entries : List Entry)
        (m : List (String × List String)),
      (entries.map (fun e => e.path)).Nodup →
      applyLocalCardOrder columnKey entries m =
        entries.filter
          (fun e => !((assocGet m columnKey).getD []).contains e.path) ++
        ((assocGet m columnKey).getD []).filterMap
          (fun path => entries.find? (fun e => e.path == path))) ∧
      applyLocalCardOrder "col" [entryA, entryB, entryC]
        [("col", ["B", "A"])] = [entryC, entryB, entryA] :=
  ⟨applyLocalCardOrder_eq, by decide⟩

/-- Witness for claim C3's general clause at a concrete input. -/
theorem applyLocalCardOrder_spec_witness :
    applyLocalCardOrder "col" [entryA, entryB] [("col", ["B", "Z"])] =
      [entryA, entryB] := by
  have h := applyLocalCardOrder_spec.1 "col" [entryA, entryB]
    [("col", ["B", "Z"])] (by decide)
  rw [h]
  decide

/-- Counterexample to claim C3 as stated: the spec's worked example claims the
result `[C, A, B]`, but the function emits the saved identifiers in saved
order (`B` then `A`) after the prepended new entry, giving `[C, B, A]`. -/
theorem applyLocalCardOrder_spec_cex :
    applyLocalCardOrder "col" [entryA, entryB, entryC] [("col", ["B", "A"])] ≠
      [entryC, entryA, entryB] := by
  decide

/-- Witness for claim C2 at a concrete input. -/
theorem mergeGroupsByColumnKey_spec_witness :
    sumEntryCounts (mergeGroupsByColumnKey
        [{ key := some "k", hasKey := true, entries := [entryA] },
         { key := some "k", hasKey := false, entries := [entryB] }]) =
      sumEntryCounts
        [{ key := some "k", hasKey := true, entries := [entryA] },
         { key := some "k", hasKey := false, entries := [entryB] }] :=
  (mergeGroupsByColumnKey_spec
    [{ key := some "k", hasKey := true, entries := [entryA] },
     { key := some "k", hasKey := false, entries := [entryB] }]).2.1

/-- Claim C7: `computeRenderSignature` is deterministic — inputs equal as
values (the embedding has no notion of object identity) always produce the
identical signature string. -/
theorem computeRenderSignature_deterministic
    (g1 g2 : List Group) (d1 d2 : DisplaySettings)
    (l1 l2 : List (String × List String)) (s1 s2 : List String)
    (p1 p2 : Option String)
    (hg : g1 = g2) (hd : d1 = d2) (hl : l1 = l2) (hs : s1 = s2)
    (hp : p1 = p2) :
    computeRenderSignature g1 d1 l1 s1 p1 =
      computeRenderSignature g2 d2 l2 s2 p2 := by
  subst hg
  subst hd
  subst hl
  subst hs
  subst hp
  rfl

/-- Witness for claim C7 at concrete, value-equal inputs. -/
theorem computeRenderSignature_deterministic_witness :
    computeRenderSignature
        [{ key := some "k", hasKey := true, entries := [entryA] }]
        sampleDisplaySettings [("k", ["A"])] ["tags"] none =
      computeRenderSignature
        [{ key := some "k", hasKey := true, entries := [entryA] }]
        sampleDisplaySettings [("k", ["A"])] ["tags"] none :=
  computeRenderSignature_deterministic _ _ _ _ _ _ _ _ _ _ rfl rfl rfl rfl rfl

/-- An empty snapshot diff forces `canRenderPartially` to refuse the partial
path. -/
theorem canRenderPartially_empty_diff (renderedGroups : List RenderedGroup)
    (prev : ColumnSnapshot) (h : Bool)
    (hdiff : findChangedColumns prev (computeColumnSnapshots renderedGroups)
      = []) :
    (canRenderPartially renderedGroups prev h).canPartial = false := by
  cases hp : (canRenderPartially renderedGroups prev h).canPartial with
  | false => rfl
  | true =>
    obtain ⟨-, -, hne⟩ := canRenderPartially_true_inversion _ _ _ hp
    exact absurd hdiff hne

/-- Claim C1 (amended): when a prior render exists, a grouping is configured,
the current signature differs from the previous one, and the snapshot diff is
empty, `render()` takes the full structural rebuild path — not the skip
path: the signature-skip branch does not fire, and `canRenderPartially`
refuses an empty diff, so the fall-through is a full render. -/
theorem renderStep_empty_diff_full (st : ViewState) (inp : RenderInput)
    (s : String) (hrb : st.hasRenderedBoard = true)
    (hsig : st.lastRenderSignature = some s)
    (hne : s ≠ currentSignatureOf inp)
    (hgb : inp.hasGroupBy = true)
    (hdiff : findChangedColumns st.lastColumnPathSnapshots
      (computeColumnSnapshots (renderedGroupsOf inp)) = []) :
    (renderStep st inp).2 = RenderDecision.full := by
  have hskip : canSkipFullRender (currentSignatureOf inp)
      st.lastRenderSignature st.hasRenderedBoard = false := by
    rw [hsig, hrb]
    show (if !true then false else currentSignatureOf inp == s) = false
    simp only [Bool.not_true, Bool.false_eq_true, if_false]
    exact beq_eq_false_iff_ne.mpr (fun he => hne he.symm)
  have hpr : (canRenderPartially (renderedGroupsOf inp)
      st.lastColumnPathSnapshots st.hasRenderedBoard).canPartial = false :=
    canRenderPartially_empty_diff _ _ _ hdiff
  simp only [renderStep]
  rw [hskip]
  simp only [Bool.false_eq_true, if_false]
  rw [hgb]
  simp only [Bool.not_true, Bool.false_eq_true, if_false]
  rw [hpr]
  simp

/-- Witness for the amended claim C1 at a concrete input. -/
theorem renderStep_empty_diff_full_witness :
    (renderStep sampleViewState sampleRenderInput).2 = RenderDecision.full :=
  renderStep_empty_diff_full sampleViewState sampleRenderInput "x"
    (by decide) (by decide) (by decide) (by decide) (by decide)

/-- Counterexample to claim C1 as stated: a concrete state in which a prior
render exists, the signature differs from the previous one, and the snapshot
diff is empty, yet the render decision is a full rebuild, not a skip. -/
theorem renderStep_empty_diff_cex :
    sampleViewState.hasRenderedBoard = true ∧
      sampleViewState.lastRenderSignature = some "x" ∧
      "x" ≠ currentSignatureOf sampleRenderInput ∧
      findChangedColumns sampleViewState.lastColumnPathSnapshots
        (computeColumnSnapshots (renderedGroupsOf sampleRenderInput)) = [] ∧
      (renderStep sampleViewState sampleRenderInput).2 ≠ RenderDecision.skip ∧
      (renderStep sampleViewState sampleRenderInput).2 = RenderDecision.full := by
  refine ⟨rfl, rfl, by decide, by decide, by decide, by decide⟩

/-- One render step never resets `hasRenderedBoard`. -/
theorem renderStep_hasRenderedBoard_mono (st : ViewState) (inp : RenderInput)
    (h : st.hasRenderedBoard = true) :
    (renderStep st inp).1.hasRenderedBoard = true := by
  simp only [renderStep]
  split
  · exact h
  · split
    · exact h
    · split
      · exact h
      · rfl

/-- A full render decision leaves `hasRenderedBoard` set. -/
theorem renderStep_full_sets_flag (st : ViewState) (inp : RenderInput)
    (h : (renderStep st inp).2 = RenderDecision.full) :
    (renderStep st inp).1.hasRenderedBoard = true := by
  simp only [renderStep] at h ⊢
  split at h
  next hc1 => simp at h
  next hc1 =>
    split at h
    next hc2 => simp at h
    next hc2 =>
      split at h
      next hc3 => simp at h
      next hc3 =>
        rw [if_neg hc1, if_neg hc2, if_neg hc3]

/-- Monotonicity across any sequence of render steps. -/
theorem runRenders_mono (inps : List RenderInput) :
    ∀ st : ViewState, st.hasRenderedBoard = true →
      (runRenders st inps).hasRenderedBoard = true := by
  induction inps with
  | nil => intro st h; exact h
  | cons i t ih =>
    intro st h
    unfold runRenders
    rw [List.foldl_cons]
    exact ih (renderStep st i).1 (renderStep_hasRenderedBoard_mono st i h)

/-- Claim C9: `hasRenderedBoard` is monotonic — it starts false, the full
render path completes with it set to true, and no reachable sequence of
render operations (skips, placeholders, partial renders, full renders) ever
resets it from true back to false. -/
theorem hasRenderedBoard_monotonic :
    initialViewState.hasRenderedBoard = false ∧
      (∀ (st : ViewState) (inp : RenderInput),
        (renderStep st inp).2 = RenderDecision.full →
        (renderStep st inp).1.hasRenderedBoard = true) ∧
      (∀ (st : ViewState) (inps : List RenderInput),
        st.hasRenderedBoard = true →
        (runRenders st inps).hasRenderedBoard = true) :=
  ⟨rfl, renderStep_full_sets_flag, fun st inps h => runRenders_mono inps st h⟩

/-- Witness for claim C9 at concrete inputs. -/
theorem hasRenderedBoard_monotonic_witness :
    (renderStep sampleViewState sampleRenderInput).1.hasRenderedBoard = true ∧
      (runRenders (ViewState.mk true none [])
        [sampleRenderInput]).hasRenderedBoard = true :=
  ⟨hasRenderedBoard_monotonic.2.1 sampleViewState sampleRenderInput (by decide),
   hasRenderedBoard_monotonic.2.2 (ViewState.mk true none [])
     [sampleRenderInput] (by decide)⟩

end Kanban
